import Mathlib

set_option maxHeartbeats 1000000
set_option maxRecDepth 8000

attribute [local semireducible] Rat.mul Rat.inv Rat.add Rat.sub Rat.ofScientific

/-! Shallow embedding of the fuzzy pronunciation-grading engine of
`src/utils.py` (normalize_text, remove_greek_accents, normalize_greek_i_sound,
number_to_greek, levenshtein_distance, word_similarity, compare_texts,
compare_texts_detailed).  Text is modelled as `List Char`, Python floats as
exact rationals `ℚ`.  Python's `str.lower` is modelled by a character table
covering the ASCII and Greek alphabet handled by the program. -/

/-- Python whitespace characters recognised by `str.split` / `str.strip`. -/
def isSpaceCh (c : Char) : Bool :=
  c = ' ' || c = '\t' || c = '\n' || c = '\r' || c = '\x0b' || c = '\x0c'

/-- The punctuation removed by `normalize_text` (the regex `[.,!?;:()]`). -/
def isPunct (c : Char) : Bool :=
  c = '.' || c = ',' || c = '!' || c = '?' || c = ';' || c = ':' || c = '(' || c = ')'

def isAsciiDigit (c : Char) : Bool := '0' ≤ c && c ≤ '9'

/-- Apply a character-to-character substitution table (first match wins). -/
def applyMap (m : List (Char × Char)) (c : Char) : Char :=
  match m.find? (fun p => p.1 == c) with
  | some p => p.2
  | none => c

/-- The accent table of `remove_greek_accents` in src/utils.py. -/
def accentPairs : List (Char × Char) :=
  [('ά', 'α'), ('έ', 'ε'), ('ή', 'η'), ('ί', 'ι'), ('ό', 'ο'), ('ύ', 'υ'), ('ώ', 'ω'),
   ('Ά', 'α'), ('Έ', 'ε'), ('Ή', 'η'), ('Ί', 'ι'), ('Ό', 'ο'), ('Ύ', 'υ'), ('Ώ', 'ω'),
   ('ϊ', 'ι'), ('ΐ', 'ι'), ('ϋ', 'υ'), ('ΰ', 'υ')]

/-- Model of Python `str.lower` as a character map over the alphabet the
program works with (ASCII letters plus the Greek alphabet and its accented
capitals); characters outside the table are left unchanged. -/
def lowerPairs : List (Char × Char) :=
  [('A', 'a'), ('B', 'b'), ('C', 'c'), ('D', 'd'), ('E', 'e'), ('F', 'f'), ('G', 'g'),
   ('H', 'h'), ('I', 'i'), ('J', 'j'), ('K', 'k'), ('L', 'l'), ('M', 'm'), ('N', 'n'),
   ('O', 'o'), ('P', 'p'), ('Q', 'q'), ('R', 'r'), ('S', 's'), ('T', 't'), ('U', 'u'),
   ('V', 'v'), ('W', 'w'), ('X', 'x'), ('Y', 'y'), ('Z', 'z'),
   ('Α', 'α'), ('Β', 'β'), ('Γ', 'γ'), ('Δ', 'δ'), ('Ε', 'ε'), ('Ζ', 'ζ'), ('Η', 'η'),
   ('Θ', 'θ'), ('Ι', 'ι'), ('Κ', 'κ'), ('Λ', 'λ'), ('Μ', 'μ'), ('Ν', 'ν'), ('Ξ', 'ξ'),
   ('Ο', 'ο'), ('Π', 'π'), ('Ρ', 'ρ'), ('Σ', 'σ'), ('Τ', 'τ'), ('Υ', 'υ'), ('Φ', 'φ'),
   ('Χ', 'χ'), ('Ψ', 'ψ'), ('Ω', 'ω'),
   ('Ά', 'ά'), ('Έ', 'έ'), ('Ή', 'ή'), ('Ί', 'ί'), ('Ό', 'ό'), ('Ύ', 'ύ'), ('Ώ', 'ώ'),
   ('Ϊ', 'ϊ'), ('Ϋ', 'ϋ')]

def charLower (c : Char) : Char := applyMap lowerPairs c

def accentFold (c : Char) : Char := applyMap accentPairs c

/-- Embedding of `remove_greek_accents` from src/utils.py: the sequential single-character
replacements amount to a pointwise map (keys are distinct and no value is a
key). -/
def removeGreekAccents (s : List Char) : List Char := s.map accentFold

/-- Python `str.strip`. -/
def stripChars (s : List Char) : List Char :=
  ((s.dropWhile isSpaceCh).reverse.dropWhile isSpaceCh).reverse

/-- Helper for `splitWs`: accumulates the current word reversed. -/
def splitWsAux : List Char → List Char → List (List Char)
  | [], acc => if acc = [] then [] else [acc.reverse]
  | c :: cs, acc =>
    if isSpaceCh c then
      if acc = [] then splitWsAux cs [] else acc.reverse :: splitWsAux cs []
    else splitWsAux cs (c :: acc)

/-- Python `str.split()` with no argument: split on whitespace runs. -/
def splitWs (s : List Char) : List (List Char) := splitWsAux s []

/-- Python `' '.join(words)`. -/
def joinWords : List (List Char) → List Char
  | [] => []
  | [w] => w
  | w :: ws => w ++ ' ' :: joinWords ws

/-- Digit-string test corresponding to Python `str.isdigit` (restricted to
ASCII digits, the digits the surrounding code produces). -/
def isDigitStr (s : List Char) : Bool := (decide (s ≠ [])) && s.all isAsciiDigit

def digitsToNat (s : List Char) : Nat :=
  s.foldl (fun n c => n * 10 + (c.toNat - '0'.toNat)) 0

/-- Model of `int(num_str.strip())` succeeding on the digit strings the
program feeds it, `none` otherwise. -/
def parseNat? (s : List Char) : Option Nat :=
  let t := stripChars s
  if isDigitStr t then some (digitsToNat t) else none

/-- The `basic_numbers` dict (keys 0–20) of `number_to_greek`; `[]` off-domain. -/
def basicNum : Nat → List Char
  | 0 => "μηδέν".data
  | 1 => "ένα".data
  | 2 => "δύο".data
  | 3 => "τρία".data
  | 4 => "τέσσερα".data
  | 5 => "πέντε".data
  | 6 => "έξι".data
  | 7 => "επτά".data
  | 8 => "οκτώ".data
  | 9 => "εννέα".data
  | 10 => "δέκα".data
  | 11 => "έντεκα".data
  | 12 => "δώδεκα".data
  | 13 => "δεκατρία".data
  | 14 => "δεκατέσσερα".data
  | 15 => "δεκαπέντε".data
  | 16 => "δεκαέξι".data
  | 17 => "δεκαεπτά".data
  | 18 => "δεκαοκτώ".data
  | 19 => "δεκαεννέα".data
  | 20 => "είκοσι".data
  | _ => []

/-- Membership in the `basic_numbers` dict (its keys are exactly 0–20). -/
def inBasic (n : Nat) : Bool := n ≤ 20

/-- The `tens` dict (keys 30,40,…,90). -/
def tensNum : Nat → List Char
  | 30 => "τριάντα".data
  | 40 => "σαράντα".data
  | 50 => "πενήντα".data
  | 60 => "εξήντα".data
  | 70 => "εβδομήντα".data
  | 80 => "ογδόντα".data
  | 90 => "ενενήντα".data
  | _ => []

def inTens (n : Nat) : Bool :=
  n = 30 || n = 40 || n = 50 || n = 60 || n = 70 || n = 80 || n = 90

/-- The `hundreds` dict (keys 100,200,…,900). -/
def hundredsNum : Nat → List Char
  | 100 => "εκατό".data
  | 200 => "διακόσια".data
  | 300 => "τριακόσια".data
  | 400 => "τετρακόσια".data
  | 500 => "πεντακόσια".data
  | 600 => "εξακόσια".data
  | 700 => "επτακόσια".data
  | 800 => "οκτακόσια".data
  | 900 => "εννιακόσια".data
  | _ => []

def inHundreds (n : Nat) : Bool :=
  n = 100 || n = 200 || n = 300 || n = 400 || n = 500 ||
  n = 600 || n = 700 || n = 800 || n = 900

/-- Embedding of `number_to_greek` from src/utils.py. -/
def number_to_greek (numStr : List Char) : Option (List Char) :=
  match parseNat? numStr with
  | none => none
  | some num =>
    if num = 1000 then some "χίλια".data
    else if inBasic num then some (basicNum num)
    else if inTens num then some (tensNum num)
    else if inHundreds num then some (hundredsNum num)
    else if 21 ≤ num ∧ num ≤ 99 then
      let tensPart := num / 10 * 10
      let onesPart := num % 10
      if 21 ≤ num ∧ num ≤ 29 then
        if onesPart = 0 then some (basicNum 20)
        else some (basicNum 20 ++ ' ' :: basicNum onesPart)
      else if inTens tensPart ∧ inBasic onesPart then
        if onesPart = 0 then some (tensNum tensPart)
        else some (tensNum tensPart ++ ' ' :: basicNum onesPart)
      else none
    else if 101 ≤ num ∧ num ≤ 999 then
      let hundredsPart := num / 100 * 100
      let remainder := num % 100
      if inHundreds hundredsPart then
        if remainder = 0 then some (hundredsNum hundredsPart)
        else if inBasic remainder then
          some (hundredsNum hundredsPart ++ ' ' :: basicNum remainder)
        else if inTens remainder then
          some (hundredsNum hundredsPart ++ ' ' :: tensNum remainder)
        else if 21 ≤ remainder ∧ remainder ≤ 29 then
          let onesPart := remainder % 10
          if onesPart = 0 then some (hundredsNum hundredsPart ++ ' ' :: basicNum 20)
          else some (hundredsNum hundredsPart ++ ' ' :: basicNum 20 ++ ' ' :: basicNum onesPart)
        else if 30 ≤ remainder ∧ remainder ≤ 99 then
          let tensPart := remainder / 10 * 10
          let onesPart := remainder % 10
          if inTens tensPart then
            if onesPart = 0 then some (hundredsNum hundredsPart ++ ' ' :: tensNum tensPart)
            else if inBasic onesPart then
              some (hundredsNum hundredsPart ++ ' ' :: tensNum tensPart ++ ' ' :: basicNum onesPart)
            else none
          else none
        else none
      else none
    else none

/-- The first transformation stages of `normalize_text`: numeral
pre-substitution, punctuation removal, lowercasing, accent removal. -/
def normalizePre (text : List Char) : List Char :=
  let ts := stripChars text
  let text1 := if isDigitStr ts then (number_to_greek ts).getD text else text
  removeGreekAccents ((text1.filter (fun c => !isPunct c)).map charLower)

/-- Embedding of `normalize_text` from src/utils.py. -/
def normalize_text (text : List Char) : List Char :=
  if text = [] then []
  else stripChars (joinWords (splitWs (normalizePre text)))


/-- The closed set of Greek articles used by `normalize_greek_i_sound` and
`compare_texts`. -/
def greekArticles : List (List Char) :=
  ["ο".data, "η".data, "το".data, "οι".data, "τα".data, "του".data, "της".data, "των".data]

/-- Python `str.replace` of a two-character pattern `[a,b]` by the single
character `r` (left-to-right, non-overlapping). -/
def replaceDigraph (a b r : Char) : List Char → List Char
  | x :: y :: rest =>
    if x = a ∧ y = b then r :: replaceDigraph a b r rest
    else x :: replaceDigraph a b r (y :: rest)
  | l => l

/-- Per-word body of `normalize_greek_i_sound`: articles untouched, otherwise
οι/ει/υι then η then υ are folded to ι. -/
def iSoundWord (w : List Char) : List Char :=
  if w ∈ greekArticles then w
  else
    let w1 := replaceDigraph 'ο' 'ι' 'ι' w
    let w2 := replaceDigraph 'ε' 'ι' 'ι' w1
    let w3 := replaceDigraph 'υ' 'ι' 'ι' w2
    let w4 := w3.map (fun c => if c = 'η' then 'ι' else c)
    w4.map (fun c => if c = 'υ' then 'ι' else c)

/-- Embedding of `normalize_greek_i_sound` from src/utils.py. -/
def normalize_greek_i_sound (text : List Char) : List Char :=
  if text = [] then text
  else joinWords ((splitWs text).map iSoundWord)

/-- Inner-row step of the Levenshtein dynamic program of
`levenshtein_distance`: `pj :: pjs` is the tail of the previous row still to
be consumed, `last` the entry just written to the current row. -/
def nextRow (c1 : Char) : List Char → List Nat → Nat → List Nat
  | c2 :: s2, pj :: pjs, last =>
    let v := min (pjs.headD 0 + 1) (min (last + 1) (pj + if c1 = c2 then 0 else 1))
    v :: nextRow c1 s2 pjs v
  | _, _, _ => []

/-- Outer loop of the dynamic program: one row per character of `s1`. -/
def levLoop (s2 : List Char) : List Char → List Nat → Nat → List Nat
  | [], prev, _ => prev
  | c1 :: s1, prev, i => levLoop s2 s1 ((i + 1) :: nextRow c1 s2 prev (i + 1)) (i + 1)

/-- Body of `levenshtein_distance` after the argument swap. -/
def levCore (s1 s2 : List Char) : Nat :=
  if s2.length = 0 then s1.length
  else (levLoop s2 s1 (List.range (s2.length + 1)) 0).getLast?.getD 0

/-- Embedding of `levenshtein_distance` from src/utils.py (the recursive call swaps the
arguments once so that the first is the longer). -/
def levenshtein_distance (s1 s2 : List Char) : Nat :=
  if s1.length < s2.length then levCore s2 s1 else levCore s1 s2

/-- Textbook recursive Levenshtein distance, used to reason about the dynamic
program. -/
def levRec : List Char → List Char → Nat
  | [], s2 => s2.length
  | _ :: s1, [] => s1.length + 1
  | c1 :: s1, c2 :: s2 =>
    min (levRec s1 (c2 :: s2) + 1)
      (min (levRec (c1 :: s1) s2 + 1) (levRec s1 s2 + if c1 = c2 then 0 else 1))
  termination_by s1 s2 => s1.length + s2.length

/-- The rows of the dynamic program, specified through `levRec`: entry `j` of
the row for the processed prefix `t1` (stored reversed) is the distance
between `t1` and the reversed `j`-prefix of `s2` (accumulated in `acc`). -/
def rowFor (t1 : List Char) : List Char → List Char → List Nat
  | acc, [] => [levRec t1 acc]
  | acc, c2 :: s2 => levRec t1 acc :: rowFor t1 (c2 :: acc) s2

/-- Length of the common prefix of two words (the `common_prefix` loop of
`word_similarity`). -/
def commonPrefixLen : List Char → List Char → Nat
  | a :: as, b :: bs => if a = b then commonPrefixLen as bs + 1 else 0
  | _, _ => 0

/-- Python `word[-2:] if len(word) >= 2 else word`. -/
def last2of (w : List Char) : List Char :=
  if 2 ≤ w.length then w.drop (w.length - 2) else w

/-- Python `word[:-2] if len(word) > 2 else word`. -/
def stem2of (w : List Char) : List Char :=
  if 2 < w.length then w.take (w.length - 2) else w

/-- Python `word[1:-1] if len(word) > 2 else word`. -/
def midOf (w : List Char) : List Char :=
  if 2 < w.length then (w.drop 1).dropLast else w

/-- Edit-distance fallback stage of `word_similarity` (lines 328-361 of
src/utils.py), on the accent-stripped words. -/
def wsFallback (w1 w2 : List Char) : ℚ :=
  let maxLen := max w1.length w2.length
  if maxLen = 0 then 1
  else
    let dist := levenshtein_distance w1 w2
    let sim0 : ℚ := 1 - (dist : ℚ) / (maxLen : ℚ)
    let sim1 :=
      if ((w1.length : ℤ) - (w2.length : ℤ)).natAbs ≤ 1 then
        if (min w1.length w2.length : ℚ) * (8/10) ≤ (commonPrefixLen w1 w2 : ℚ) then
          max sim0 (7/10)
        else sim0
      else sim0
    let sim2 :=
      if 4 ≤ min w1.length w2.length ∧ w1.take 3 ≠ w2.take 3 ∧
          1 - (levenshtein_distance (w1.take 3) (w2.take 3) : ℚ) / 3 < 67/100 then
        sim1 * (6/10)
      else sim1
    max 0 sim2

/-- Middle-segment stage of `word_similarity` (lines 310-326). -/
def wsMid (w1 w2 : List Char) : ℚ :=
  if 4 ≤ min w1.length w2.length ∧ midOf w1 ≠ [] ∧ midOf w2 ≠ [] ∧
      1 - (levenshtein_distance (midOf w1) (midOf w2) : ℚ) /
        (max (midOf w1).length (midOf w2).length : ℚ) < 7/10 then
    max 0 (1 - (levenshtein_distance w1 w2 : ℚ) / (max w1.length w2.length : ℚ) - 2/10)
  else wsFallback w1 w2

/-- Root/suffix stage of `word_similarity` (lines 292-308). -/
def wsRoot (w1 w2 : List Char) : ℚ :=
  if 3 ≤ min w1.length w2.length ∧ last2of w1 ≠ last2of w2 ∧ stem2of w1 = stem2of w2 then
    65/100
  else wsMid w1 w2

/-- Embedding of `word_similarity` from src/utils.py. -/
def word_similarity (word1 word2 : List Char) : ℚ :=
  if word1 = word2 then 1
  else
    let w1 := removeGreekAccents word1
    let w2 := removeGreekAccents word2
    if w1 = w2 then 95/100
    else if normalize_greek_i_sound w1 = normalize_greek_i_sound w2 then 92/100
    else wsRoot w1 w2


/-- A mistake record of `compare_texts_detailed`. -/
structure Mistake where
  position : Nat
  recognized : Option (List Char)
  correct : Option (List Char)
  similarity : ℚ
deriving DecidableEq

/-- Best match search over the window `[j, hi)` of the recognised words
(`for j in range(search_start, search_end)` with its best-similarity
tracking; `sim > best` keeps the first maximum). -/
def bestWin (uw : List (List Char)) (cword : List Char) (lo hi : Nat) : ℚ × Option Nat :=
  (List.range' lo (hi - lo)).foldl
    (fun acc j =>
      match uw[j]? with
      | none => acc
      | some w =>
        let sim := word_similarity w cword
        if acc.1 < sim then (sim, some j) else acc)
    (0, none)

/-- The reference-word loop of `compare_texts_detailed` (`for correct_idx,
correct_word in enumerate(correct_words)`), carrying `user_idx` and the
mistake list. -/
def refLoop (uw : List (List Char)) : List (List Char) → Nat → Nat → List Mistake → Nat × List Mistake
  | [], _, userIdx, ms => (userIdx, ms)
  | cword :: rest, ci, userIdx, ms =>
    let lo := userIdx - 1
    let hi := min uw.length (userIdx + 4)
    let b := bestWin uw cword lo hi
    match b.2 with
    | some j =>
      if 8/10 ≤ b.1 then refLoop uw rest (ci + 1) (j + 1) ms
      else if 1/2 < b.1 then
        refLoop uw rest (ci + 1) (j + 1) (ms ++ [⟨ci, some (uw.getD j []), some cword, b.1⟩])
      else refLoop uw rest (ci + 1) userIdx (ms ++ [⟨ci, none, some cword, 0⟩])
    | none => refLoop uw rest (ci + 1) userIdx (ms ++ [⟨ci, none, some cword, 0⟩])

/-- Best similarity of a leftover recognised word against every reference
word, together with the index of the best reference word. -/
def bestOverRefs (cw : List (List Char)) (w : List Char) : List (List Char) → Nat → ℚ × Option Nat → ℚ × Option Nat
  | [], _, acc => acc
  | cword :: rest, k, acc =>
    let sim := word_similarity w cword
    bestOverRefs cw w rest (k + 1) (if acc.1 < sim then (sim, some k) else acc)

/-- The leftover-words loop of `compare_texts_detailed`: each unconsumed
recognised word whose best similarity is below 0.8 becomes an extra-word
mistake. -/
def extraLoop (cw : List (List Char)) : List (List Char) → List Mistake
  | [] => []
  | w :: rest =>
    let b := bestOverRefs cw w cw 0 (0, none)
    (if b.1 < 8/10 then [⟨b.2.getD cw.length, some w, none, b.1⟩] else []) ++ extraLoop cw rest

/-- Numeral pre-substitution applied to the raw candidate by both entry
points. -/
def userAdjusted (userText : List Char) : List Char :=
  let us := stripChars userText
  if isDigitStr us then (number_to_greek us).getD userText else userText

/-- The two phases of the aligner of `compare_texts_detailed` on the main
path: mistakes of the reference loop, then extra-word mistakes. -/
def detailedParts (userText correctText : List Char) : List Mistake × List Mistake :=
  if userText = [] then ([], [])
  else
    let un := normalize_text (userAdjusted userText)
    let cn := normalize_text correctText
    if un = cn then ([], [])
    else if normalize_greek_i_sound un = normalize_greek_i_sound cn then ([], [])
    else
      let uw := splitWs un
      let cw := splitWs cn
      let r := refLoop uw cw 0 0 []
      (r.2, extraLoop cw (uw.drop r.1))

/-- Embedding of `compare_texts_detailed` from src/utils.py. -/
def compare_texts_detailed (userText correctText : List Char) : Bool × ℚ × List Mistake :=
  if userText = [] then (false, 0, [])
  else
    let un := normalize_text (userAdjusted userText)
    let cn := normalize_text correctText
    if un = cn then (true, 1, [])
    else if normalize_greek_i_sound un = normalize_greek_i_sound cn then (true, 98/100, [])
    else
      let uw := splitWs un
      let cw := splitWs cn
      let r := refLoop uw cw 0 0 []
      let ms := r.2 ++ extraLoop cw (uw.drop r.1)
      let total := max uw.length cw.length
      let sim : ℚ := if 0 < total then ((total : ℚ) - (ms.length : ℚ)) / (total : ℚ) else 0
      (decide (85/100 ≤ sim) && decide (ms.length = 0), sim, ms)

/-- Greedy best-unclaimed-word search of `compare_texts` (inner loop over
`user_main_words`, skipping already matched words). -/
def bestUnclaimed (matched : List (List Char)) (cword : List Char) : List (List Char) → ℚ × Option (List Char) → ℚ × Option (List Char)
  | [], acc => acc
  | u :: rest, acc =>
    if u ∈ matched then bestUnclaimed matched cword rest acc
    else
      let sim := word_similarity u cword
      bestUnclaimed matched cword rest (if acc.1 < sim then (sim, some u) else acc)

/-- Outer greedy loop of `compare_texts`: accumulates the best similarity for
each reference word and claims the matched candidate word (Python's falsy
test `if best_match:` skips both `None` and the empty string). -/
def greedyLoop (umw : List (List Char)) : List (List Char) → ℚ → List (List Char) → ℚ
  | [], tot, _ => tot
  | cword :: rest, tot, matched =>
    let b := bestUnclaimed matched cword umw (0, none)
    let matched' :=
      match b.2 with
      | some w => if w = [] then matched else matched ++ [w]
      | none => matched
    greedyLoop umw rest (tot + b.1) matched'

/-- Python `max(word_similarity(uw, cw) for uw in us for cw in cs)`: as every
`word_similarity` value is nonnegative, the max of the nonempty generator
equals this fold from 0. -/
def maxPairSim (us cs : List (List Char)) : ℚ :=
  us.foldl (fun acc u => cs.foldl (fun b c => max b (word_similarity u c)) acc) 0

/-- Python `total_similarity / len(correct_words) if correct_words else 0.0`
for the greedy pass of `compare_texts`. -/
def mainScore (um cm : List (List Char)) : ℚ :=
  if cm ≠ [] then greedyLoop um cm 0 [] / (cm.length : ℚ) else 0

/-- First decision block of `compare_texts` (lines 536-616): the
article-aware main-word comparison, or the all-words comparison when one side
has no content words.  Returns `(final_similarity, is_correct)`. -/
def ctPhase1 (ua ca um cm uw cw : List (List Char)) : ℚ × Bool :=
  if um ≠ [] ∧ cm ≠ [] then
    let ms := mainScore um cm
    let am := ua = ca
    if 85/100 ≤ ms ∧ am then (ms, true)
    else if 85/100 ≤ ms ∧ ¬am then (ms * (7/10), false)
    else if ms < 7/10 then (ms, false)
    else if ms < 75/100 then (ms, false)
    else if am then (ms, decide (85/100 ≤ ms))
    else (ms * (7/10), false)
  else
    let fs := mainScore uw cw
    (fs, decide (8/10 ≤ fs))

/-- Whole-string similarity boost of `compare_texts` (lines 618-631). -/
def ctPhase2 (fs0 : ℚ) (um cm : List (List Char)) (ss : ℚ) : ℚ :=
  if um ≠ [] ∧ cm ≠ [] then
    if 7/10 ≤ word_similarity (um.headD []) (cm.headD []) ∧ 92/100 < ss then
      max fs0 (ss * (95/100))
    else fs0
  else if 9/10 < ss then max fs0 (ss * (95/100)) else fs0

/-- Best-pairwise-word boost of `compare_texts` (lines 633-665). -/
def ctPhase3 (fs1 : ℚ) (ic0 : Bool) (ua ca um cm uw cw : List (List Char)) : ℚ × Bool :=
  if 0 < uw.length ∧ 0 < cw.length then
    if um ≠ [] ∧ cm ≠ [] then
      let am := ua = ca
      let mms := maxPairSim um cm
      if 92/100 < mms then
        let fs2 := max fs1 (mms * (95/100))
        if 92/100 ≤ mms ∧ am then (fs2, true)
        else if 92/100 ≤ mms ∧ ¬am then (fs2, false)
        else (fs2, ic0)
      else (fs1, ic0)
    else
      let mws := maxPairSim uw cw
      if 92/100 < mws then
        let fs2 := max fs1 (mws * (95/100))
        if 92/100 ≤ mws then (fs2, true) else (fs2, ic0)
      else (fs1, ic0)
  else (fs1, ic0)

/-- Embedding of `compare_texts` from src/utils.py. -/
def compare_texts (userText correctText : List Char) : Bool × ℚ :=
  if userText = [] then (false, 0)
  else
    let un := normalize_text (userAdjusted userText)
    let cn := normalize_text correctText
    let uni := normalize_greek_i_sound un
    let cni := normalize_greek_i_sound cn
    if un = cn then (true, 1)
    else if uni = cni then (true, 98/100)
    else
      let uw := splitWs un
      let cw := splitWs cn
      if uw.length = 0 ∨ cw.length = 0 then
        let s := word_similarity un cn
        (decide (8/10 ≤ s), s)
      else
        let ua := uw.filter (fun w => w ∈ greekArticles)
        let um := uw.filter (fun w => w ∉ greekArticles)
        let ca := cw.filter (fun w => w ∈ greekArticles)
        let cm := cw.filter (fun w => w ∉ greekArticles)
        let p1 := ctPhase1 ua ca um cm uw cw
        let fs1 := ctPhase2 p1.1 um cm (word_similarity un cn)
        let p2 := ctPhase3 fs1 p1.2 ua ca um cm uw cw
        (if p2.2 then decide (82/100 ≤ p2.1) else false, p2.1)

/-- Characters fixed by every normalisation stage: not punctuation, fixed by
the lower-case table and by the accent table. -/
def goodChar (c : Char) : Bool :=
  !isPunct c && (charLower c == c) && (accentFold c == c)

/-! Lemmas about whitespace splitting, joining and stripping. -/

theorem mem_splitWsAux_ok :
    ∀ (s acc : List Char), (∀ c ∈ acc, isSpaceCh c = false) →
      ∀ w ∈ splitWsAux s acc, w ≠ [] ∧ ∀ c ∈ w, isSpaceCh c = false := by
  intro s
  induction s with
  | nil =>
    intro acc hacc w hw
    by_cases h : acc = []
    · simp [splitWsAux, h] at hw
    · simp only [splitWsAux, if_neg h, List.mem_singleton] at hw
      subst hw
      refine ⟨by simpa using h, ?_⟩
      intro c hc
      exact hacc c (List.mem_reverse.mp hc)
  | cons a s ih =>
    intro acc hacc w hw
    by_cases hsp : isSpaceCh a = true
    · by_cases h : acc = []
      · simp only [splitWsAux, hsp, if_true, h, if_pos] at hw
        exact ih [] (by simp) w hw
      · simp only [splitWsAux, hsp, if_true, if_neg h, List.mem_cons] at hw
        rcases hw with rfl | hw
        · refine ⟨by simpa using h, ?_⟩
          intro c hc
          exact hacc c (List.mem_reverse.mp hc)
        · exact ih [] (by simp) w hw
    · simp only [splitWsAux, hsp, if_false, Bool.false_eq_true] at hw
      refine ih (a :: acc) ?_ w hw
      intro c hc
      rcases List.mem_cons.mp hc with rfl | hc
      · exact Bool.not_eq_true _ ▸ (by simpa using hsp)
      · exact hacc c hc

theorem mem_splitWs_ok (s : List Char) :
    ∀ w ∈ splitWs s, w ≠ [] ∧ ∀ c ∈ w, isSpaceCh c = false :=
  mem_splitWsAux_ok s [] (by simp)

theorem mem_splitWsAux_subset :
    ∀ (s acc : List Char), ∀ w ∈ splitWsAux s acc, ∀ c ∈ w, c ∈ s ∨ c ∈ acc := by
  intro s
  induction s with
  | nil =>
    intro acc w hw c hc
    by_cases h : acc = []
    · simp [splitWsAux, h] at hw
    · simp only [splitWsAux, if_neg h, List.mem_singleton] at hw
      subst hw
      exact Or.inr (List.mem_reverse.mp hc)
  | cons a s ih =>
    intro acc w hw c hc
    by_cases hsp : isSpaceCh a = true
    · by_cases h : acc = []
      · simp only [splitWsAux, hsp, if_true, h, if_pos] at hw
        rcases ih [] w hw c hc with h1 | h1
        · exact Or.inl (List.mem_cons_of_mem _ h1)
        · simp at h1
      · simp only [splitWsAux, hsp, if_true, if_neg h, List.mem_cons] at hw
        rcases hw with rfl | hw
        · exact Or.inr (List.mem_reverse.mp hc)
        · rcases ih [] w hw c hc with h1 | h1
          · exact Or.inl (List.mem_cons_of_mem _ h1)
          · simp at h1
    · simp only [splitWsAux, hsp, if_false, Bool.false_eq_true] at hw
      rcases ih (a :: acc) w hw c hc with h1 | h1
      · exact Or.inl (List.mem_cons_of_mem _ h1)
      · rcases List.mem_cons.mp h1 with rfl | h1
        · exact Or.inl (List.mem_cons_self _ _)
        · exact Or.inr h1

theorem splitWsAux_append_word :
    ∀ (w : List Char), (∀ c ∈ w, isSpaceCh c = false) → ∀ (rest acc : List Char),
      splitWsAux (w ++ rest) acc = splitWsAux rest (w.reverse ++ acc) := by
  intro w
  induction w with
  | nil => intro _ rest acc; simp
  | cons a w ih =>
    intro hw rest acc
    have ha : isSpaceCh a = false := hw a (List.mem_cons_self _ _)
    have hw' : ∀ c ∈ w, isSpaceCh c = false := fun c hc => hw c (List.mem_cons_of_mem _ hc)
    simp only [List.cons_append, splitWsAux, ha, Bool.false_eq_true, if_false, List.append_eq]
    rw [ih hw' rest (a :: acc)]
    simp

theorem splitWs_joinWords :
    ∀ ws : List (List Char), (∀ w ∈ ws, w ≠ [] ∧ ∀ c ∈ w, isSpaceCh c = false) →
      splitWs (joinWords ws) = ws := by
  intro ws
  induction ws with
  | nil => intro _; rfl
  | cons w ws ih =>
    intro h
    obtain ⟨hw, hwsp⟩ := h w (List.mem_cons_self _ _)
    cases ws with
    | nil =>
      show splitWsAux (joinWords [w]) [] = [w]
      have : joinWords [w] = w ++ [] := by simp [joinWords]
      rw [this, splitWsAux_append_word w hwsp [] []]
      simp [splitWsAux, hw]
    | cons w' ws' =>
      show splitWsAux (joinWords (w :: w' :: ws')) [] = w :: w' :: ws'
      have hj : joinWords (w :: w' :: ws') = w ++ (' ' :: joinWords (w' :: ws')) := rfl
      rw [hj, splitWsAux_append_word w hwsp _ []]
      have hsp : isSpaceCh ' ' = true := rfl
      have hrev : w.reverse ++ [] ≠ [] := by simpa using hw
      simp only [splitWsAux, hsp, if_true, if_neg hrev]
      rw [List.append_nil, List.reverse_reverse]
      have := ih (fun u hu => h u (List.mem_cons_of_mem _ hu))
      rw [show splitWsAux (joinWords (w' :: ws')) [] = splitWs (joinWords (w' :: ws')) from rfl, this]

theorem joinWords_ne_nil (w : List Char) (ws : List (List Char)) (hw : w ≠ []) :
    joinWords (w :: ws) ≠ [] := by
  cases ws with
  | nil => simpa [joinWords] using hw
  | cons w' ws' =>
    show w ++ (' ' :: joinWords (w' :: ws')) ≠ []
    simp

theorem joinWords_head (w : List Char) (ws : List (List Char)) (hw : w ≠ []) :
    ∃ d t, joinWords (w :: ws) = d :: t ∧ d ∈ w := by
  obtain ⟨c, w', rfl⟩ : ∃ c w', w = c :: w' := by
    cases w with
    | nil => exact absurd rfl hw
    | cons c w' => exact ⟨c, w', rfl⟩
  cases ws with
  | nil => exact ⟨c, w', rfl, (List.mem_cons_self _ _)⟩
  | cons u us => exact ⟨c, w' ++ ' ' :: joinWords (u :: us), rfl, (List.mem_cons_self _ _)⟩

theorem joinWords_getLast :
    ∀ ws : List (List Char), (∀ w ∈ ws, w ≠ []) → ws ≠ [] →
      ∃ d, (joinWords ws).getLast? = some d ∧ ∃ w ∈ ws, d ∈ w := by
  intro ws
  induction ws with
  | nil => intro _ h; exact absurd rfl h
  | cons w ws ih =>
    intro h _
    cases ws with
    | nil =>
      have hw : w ≠ [] := h w (List.mem_cons_self _ _)
      refine ⟨w.getLast hw, ?_, w, (List.mem_cons_self _ _), List.getLast_mem hw⟩
      simp [joinWords, List.getLast?_eq_getLast w hw]
    | cons w' ws' =>
      obtain ⟨d, hd, u, hu, hdu⟩ := ih (fun u hu => h u (List.mem_cons_of_mem _ hu)) (by simp)
      refine ⟨d, ?_, u, List.mem_cons_of_mem _ hu, hdu⟩
      show (w ++ (' ' :: joinWords (w' :: ws'))).getLast? = some d
      rw [List.getLast?_append]
      have hne : joinWords (w' :: ws') ≠ [] :=
        joinWords_ne_nil w' ws' (h w' (List.mem_cons_of_mem _ (List.mem_cons_self _ _)))
      rw [List.getLast?_cons]
      rw [hd]
      rfl

theorem stripChars_of_ends (s : List Char)
    (hh : ∃ c t, s = c :: t ∧ isSpaceCh c = false)
    (hl : ∃ d, s.getLast? = some d ∧ isSpaceCh d = false) :
    stripChars s = s := by
  obtain ⟨c, t, rfl, hc⟩ := hh
  obtain ⟨d, hd, hdsp⟩ := hl
  unfold stripChars
  rw [List.dropWhile_cons, if_neg (by simp [hc])]
  have hrev : (c :: t).reverse.head? = some d := by
    rw [List.head?_reverse]; exact hd
  obtain ⟨rest, hrest⟩ : ∃ rest, (c :: t).reverse = d :: rest := by
    cases hr : (c :: t).reverse with
    | nil => rw [hr] at hrev; simp at hrev
    | cons x xs =>
      rw [hr] at hrev
      simp only [List.head?_cons, Option.some.injEq] at hrev
      exact ⟨xs, by rw [hrev] at hr ⊢⟩
  rw [hrest, List.dropWhile_cons, if_neg (by simp [hdsp]), ← hrest, List.reverse_reverse]

theorem stripChars_joinWords (ws : List (List Char))
    (h : ∀ w ∈ ws, w ≠ [] ∧ ∀ c ∈ w, isSpaceCh c = false) (hne : ws ≠ []) :
    stripChars (joinWords ws) = joinWords ws := by
  obtain ⟨w, ws', rfl⟩ : ∃ w ws', ws = w :: ws' := by
    cases ws with
    | nil => exact absurd rfl hne
    | cons w ws' => exact ⟨w, ws', rfl⟩
  obtain ⟨hw, _⟩ := h w (List.mem_cons_self _ _)
  apply stripChars_of_ends
  · obtain ⟨d, t, hj, hd⟩ := joinWords_head w ws' hw
    exact ⟨d, t, hj, (h w (List.mem_cons_self _ _)).2 d hd⟩
  · obtain ⟨d, hd, u, hu, hdu⟩ := joinWords_getLast (w :: ws') (fun u hu => (h u hu).1) (by simp)
    exact ⟨d, hd, (h u hu).2 d hdu⟩

theorem normalize_text_eq_join (s : List Char) (hs : s ≠ [])
    (hws : splitWs (normalizePre s) ≠ []) :
    normalize_text s = joinWords (splitWs (normalizePre s)) := by
  unfold normalize_text
  rw [if_neg hs]
  exact stripChars_joinWords _ (mem_splitWs_ok _) hws

theorem splitWs_normalize_text (s : List Char) :
    splitWs (normalize_text s) = splitWs (normalizePre s) := by
  by_cases hs : s = []
  · subst hs
    rfl
  · by_cases hws : splitWs (normalizePre s) = []
    · unfold normalize_text
      rw [if_neg hs, hws]
      rfl
    · rw [normalize_text_eq_join s hs hws]
      exact splitWs_joinWords _ (mem_splitWs_ok _)

theorem normalize_text_of_no_words (s : List Char) (hws : splitWs (normalizePre s) = []) :
    normalize_text s = [] := by
  by_cases hs : s = []
  · subst hs; rfl
  · unfold normalize_text
    rw [if_neg hs, hws]
    rfl

/-! Lemmas about the character tables. -/

theorem applyMap_of_find_none {m : List (Char × Char)} {c : Char}
    (h : m.find? (fun p => p.1 == c) = none) : applyMap m c = c := by
  unfold applyMap
  rw [h]

theorem applyMap_value {m : List (Char × Char)} {c : Char} {p : Char × Char}
    (h : m.find? (fun p => p.1 == c) = some p) : applyMap m c = p.2 := by
  unfold applyMap
  rw [h]

theorem lowerPairs_values_good :
    ∀ p ∈ lowerPairs, goodChar (accentFold p.2) = true := by decide

theorem accentPairs_values_good : ∀ p ∈ accentPairs, goodChar p.2 = true := by decide

theorem accentPairs_nospace :
    ∀ p ∈ accentPairs, isSpaceCh p.1 = false ∧ isSpaceCh p.2 = false := by decide

theorem goodChar_space : goodChar ' ' = true := by decide

theorem goodChar_spec {c : Char} (h : goodChar c = true) :
    isPunct c = false ∧ charLower c = c ∧ accentFold c = c := by
  simp only [goodChar, Bool.and_eq_true, Bool.not_eq_true', beq_iff_eq] at h
  exact ⟨h.1.1, h.1.2, h.2⟩

theorem goodChar_of_not_punct {c : Char} (h : isPunct c = false) :
    goodChar (accentFold (charLower c)) = true := by
  cases hl : lowerPairs.find? (fun p => p.1 == c) with
  | some p =>
    rw [show charLower c = p.2 from applyMap_value hl]
    exact lowerPairs_values_good p (List.mem_of_find?_eq_some hl)
  | none =>
    rw [show charLower c = c from applyMap_of_find_none hl]
    cases ha : accentPairs.find? (fun p => p.1 == c) with
    | some q =>
      rw [show accentFold c = q.2 from applyMap_value ha]
      exact accentPairs_values_good q (List.mem_of_find?_eq_some ha)
    | none =>
      rw [show accentFold c = c from applyMap_of_find_none ha]
      simp only [goodChar, h, Bool.not_false, Bool.true_and, Bool.and_eq_true, beq_iff_eq]
      exact ⟨applyMap_of_find_none hl, applyMap_of_find_none ha⟩

theorem isSpaceCh_accentFold (c : Char) : isSpaceCh (accentFold c) = isSpaceCh c := by
  cases ha : accentPairs.find? (fun p => p.1 == c) with
  | some q =>
    rw [show accentFold c = q.2 from applyMap_value ha]
    have hq := accentPairs_nospace q (List.mem_of_find?_eq_some ha)
    have hc : q.1 = c := by simpa using List.find?_some ha
    rw [hq.2, ← hc, hq.1]
  | none => rw [show accentFold c = c from applyMap_of_find_none ha]

theorem map_fixed {f : Char → Char} :
    ∀ {l : List Char}, (∀ c ∈ l, f c = c) → l.map f = l := by
  intro l
  induction l with
  | nil => intro _; rfl
  | cons a l ih =>
    intro h
    rw [List.map_cons, h a (List.mem_cons_self _ _), ih (fun c hc => h c (List.mem_cons_of_mem _ hc))]

/-! Conditional idempotence of normalisation. -/

theorem mem_joinWords :
    ∀ (ws : List (List Char)) (c : Char), c ∈ joinWords ws → c = ' ' ∨ ∃ w ∈ ws, c ∈ w := by
  intro ws
  induction ws with
  | nil => intro c hc; simp [joinWords] at hc
  | cons w ws ih =>
    intro c hc
    cases ws with
    | nil => exact Or.inr ⟨w, List.mem_cons_self _ _, hc⟩
    | cons w' ws' =>
      rcases List.mem_append.mp hc with h | h
      · exact Or.inr ⟨w, List.mem_cons_self _ _, h⟩
      · rcases List.mem_cons.mp h with rfl | h
        · exact Or.inl rfl
        · rcases ih c h with h1 | ⟨u, hu, hcu⟩
          · exact Or.inl h1
          · exact Or.inr ⟨u, List.mem_cons_of_mem _ hu, hcu⟩

theorem mem_stripChars_subset {s : List Char} {c : Char} (h : c ∈ stripChars s) : c ∈ s := by
  unfold stripChars at h
  rw [List.mem_reverse] at h
  have h1 := (List.dropWhile_sublist _).mem h
  rw [List.mem_reverse] at h1
  exact (List.dropWhile_sublist _).mem h1

theorem mem_normalizePre_good (s : List Char) : ∀ c ∈ normalizePre s, goodChar c = true := by
  intro c hc
  unfold normalizePre removeGreekAccents at hc
  obtain ⟨b, hb, rfl⟩ := List.mem_map.mp hc
  obtain ⟨a, ha, rfl⟩ := List.mem_map.mp hb
  have hap : isPunct a = false := by
    have := List.of_mem_filter ha
    simpa using this
  exact goodChar_of_not_punct hap

theorem mem_normalize_text_good (s : List Char) :
    ∀ c ∈ normalize_text s, goodChar c = true := by
  intro c hc
  unfold normalize_text at hc
  by_cases hs : s = []
  · rw [if_pos hs] at hc
    simp at hc
  · rw [if_neg hs] at hc
    have hc1 := mem_stripChars_subset hc
    rcases mem_joinWords _ _ hc1 with rfl | ⟨w, hw, hcw⟩
    · exact goodChar_space
    · rcases mem_splitWsAux_subset _ [] w hw c hcw with h1 | h1
      · exact mem_normalizePre_good s c h1
      · simp at h1

theorem normalizePre_nil : normalizePre [] = [] := by decide

theorem normalize_text_idem_aux (s : List Char)
    (hdig : ¬(isDigitStr (stripChars (normalize_text s)) = true ∧
      (number_to_greek (stripChars (normalize_text s))).isSome = true)) :
    normalize_text (normalize_text s) = normalize_text s := by
  by_cases hws : splitWs (normalizePre s) = []
  · rw [normalize_text_of_no_words s hws]
    rfl
  · have hs : s ≠ [] := by
      intro h
      subst h
      rw [normalizePre_nil] at hws
      exact hws rfl
    have ht : normalize_text s = joinWords (splitWs (normalizePre s)) :=
      normalize_text_eq_join s hs hws
    set t := normalize_text s with htdef
    have hok := mem_splitWs_ok (normalizePre s)
    have hgood : ∀ c ∈ t, goodChar c = true := mem_normalize_text_good s
    have hstrip : stripChars t = t := by
      rw [ht]
      exact stripChars_joinWords _ hok hws
    have htne : t ≠ [] := by
      rw [ht]
      obtain ⟨w, ws', hws'⟩ : ∃ w ws', splitWs (normalizePre s) = w :: ws' := by
        cases h : splitWs (normalizePre s) with
        | nil => exact absurd h hws
        | cons w ws' => exact ⟨w, ws', rfl⟩
      rw [hws']
      exact joinWords_ne_nil w ws' (hok w (hws' ▸ List.mem_cons_self _ _)).1
    rw [hstrip] at hdig
    have hpre : normalizePre t = t := by
      have h1 : normalizePre t =
          removeGreekAccents (List.map charLower (List.filter (fun c => !isPunct c)
            (if isDigitStr (stripChars t) = true then (number_to_greek (stripChars t)).getD t
             else t))) := rfl
      rw [h1, hstrip]
      have htext1 : (if isDigitStr t = true then (number_to_greek t).getD t else t) = t := by
        by_cases hd : isDigitStr t = true
        · rw [if_pos hd]
          cases hng : number_to_greek t with
          | none => rfl
          | some g =>
            exact absurd ⟨hd, by rw [hng]; rfl⟩ hdig
        · rw [if_neg hd]
      rw [htext1]
      have hfil : t.filter (fun c => !isPunct c) = t := by
        apply List.filter_eq_self.mpr
        intro a ha
        simp [(goodChar_spec (hgood a ha)).1]
      rw [hfil]
      have hlow : t.map charLower = t := map_fixed (fun c hc => (goodChar_spec (hgood c hc)).2.1)
      rw [hlow]
      exact map_fixed (fun c hc => (goodChar_spec (hgood c hc)).2.2)
    show normalize_text t = t
    unfold normalize_text
    rw [if_neg htne, hpre]
    conv_lhs => rw [ht]
    rw [splitWs_joinWords _ hok, ← ht, hstrip]

/-! Equivalence of the Levenshtein dynamic program with the textbook
recursion, and symmetry. -/

theorem levRec_nil_right : ∀ s : List Char, levRec s [] = s.length := by
  intro s
  cases s <;> simp [levRec]

theorem levRec_comm : ∀ a b : List Char, levRec a b = levRec b a := by
  intro a
  induction a with
  | nil =>
    intro b
    cases b <;> simp [levRec]
  | cons c1 s1 ih =>
    intro b
    induction b with
    | nil => simp [levRec]
    | cons c2 s2 ih2 =>
      simp only [levRec]
      rw [ih (c2 :: s2), ih s2, ih2]
      have hc : (if c1 = c2 then 0 else 1) = (if c2 = c1 then 0 else 1) := by
        by_cases h : c1 = c2
        · simp [h]
        · simp [h, Ne.symm h]
      rw [hc]
      omega

theorem rowFor_headD (t1 acc s2 : List Char) : (rowFor t1 acc s2).headD 0 = levRec t1 acc := by
  cases s2 <;> rfl

theorem rowFor_step (c1 : Char) (t1 : List Char) :
    ∀ (s2 acc : List Char),
      rowFor (c1 :: t1) acc s2
        = levRec (c1 :: t1) acc :: nextRow c1 s2 (rowFor t1 acc s2) (levRec (c1 :: t1) acc) := by
  intro s2
  induction s2 with
  | nil => intro acc; rfl
  | cons c2 s2 ih =>
    intro acc
    have hlhs : rowFor (c1 :: t1) acc (c2 :: s2)
        = levRec (c1 :: t1) acc :: rowFor (c1 :: t1) (c2 :: acc) s2 := rfl
    have hprev : rowFor t1 acc (c2 :: s2) = levRec t1 acc :: rowFor t1 (c2 :: acc) s2 := rfl
    rw [hlhs, ih (c2 :: acc), hprev]
    have hrhs : nextRow c1 (c2 :: s2) (levRec t1 acc :: rowFor t1 (c2 :: acc) s2)
          (levRec (c1 :: t1) acc)
        = (min ((rowFor t1 (c2 :: acc) s2).headD 0 + 1)
            (min (levRec (c1 :: t1) acc + 1) (levRec t1 acc + if c1 = c2 then 0 else 1)))
          :: nextRow c1 s2 (rowFor t1 (c2 :: acc) s2)
            (min ((rowFor t1 (c2 :: acc) s2).headD 0 + 1)
              (min (levRec (c1 :: t1) acc + 1) (levRec t1 acc + if c1 = c2 then 0 else 1))) := rfl
    rw [hrhs, rowFor_headD]
    have hv : min (levRec t1 (c2 :: acc) + 1)
        (min (levRec (c1 :: t1) acc + 1) (levRec t1 acc + if c1 = c2 then 0 else 1))
        = levRec (c1 :: t1) (c2 :: acc) := by
      simp only [levRec]
    rw [hv]

theorem levLoop_rowFor (s2 : List Char) :
    ∀ (s1 t1 : List Char),
      levLoop s2 s1 (rowFor t1 [] s2) t1.length = rowFor (s1.reverse ++ t1) [] s2 := by
  intro s1
  induction s1 with
  | nil => intro t1; simp [levLoop]
  | cons c1 s1 ih =>
    intro t1
    have h1 : levLoop s2 (c1 :: s1) (rowFor t1 [] s2) t1.length
        = levLoop s2 s1 ((t1.length + 1) :: nextRow c1 s2 (rowFor t1 [] s2) (t1.length + 1))
          (t1.length + 1) := rfl
    have h2 : t1.length + 1 = levRec (c1 :: t1) [] := by simp [levRec]
    rw [h1, h2, ← rowFor_step c1 t1 s2 []]
    rw [levRec_nil_right (c1 :: t1)]
    rw [ih (c1 :: t1)]
    simp

theorem rowFor_range : ∀ (s2 acc : List Char),
    rowFor [] acc s2 = List.range' acc.length (s2.length + 1) := by
  intro s2
  induction s2 with
  | nil =>
    intro acc
    simp [rowFor, levRec, List.range']
  | cons c2 s2 ih =>
    intro acc
    have h1 : rowFor [] acc (c2 :: s2) = levRec [] acc :: rowFor [] (c2 :: acc) s2 := rfl
    rw [h1, ih (c2 :: acc)]
    have h2 : levRec [] acc = acc.length := by simp [levRec]
    rw [h2]
    have h3 : (c2 :: s2).length + 1 = s2.length + 1 + 1 := by simp
    rw [h3]
    conv_rhs => rw [List.range'_succ]
    rfl

theorem rowFor_getLast : ∀ (s2 acc t1 : List Char),
    (rowFor t1 acc s2).getLast?.getD 0 = levRec t1 (s2.reverse ++ acc) := by
  intro s2
  induction s2 with
  | nil => intro acc t1; simp [rowFor]
  | cons c2 s2 ih =>
    intro acc t1
    have h1 : rowFor t1 acc (c2 :: s2) = levRec t1 acc :: rowFor t1 (c2 :: acc) s2 := rfl
    rw [h1]
    have hne : rowFor t1 (c2 :: acc) s2 ≠ [] := by cases s2 <;> simp [rowFor]
    rw [List.getLast?_cons]
    cases hlast : (rowFor t1 (c2 :: acc) s2).getLast? with
    | none => exact absurd (List.getLast?_eq_none_iff.mp hlast) hne
    | some x =>
      have := ih (c2 :: acc) t1
      rw [hlast] at this
      simp only [Option.getD_some] at this ⊢
      rw [this]
      congr 1
      simp

theorem levCore_eq_levRec (s1 s2 : List Char) :
    levCore s1 s2 = levRec s1.reverse s2.reverse := by
  unfold levCore
  by_cases h : s2.length = 0
  · rw [if_pos h]
    have h2 : s2 = [] := List.length_eq_zero.mp h
    subst h2
    rw [List.reverse_nil, levRec_nil_right, List.length_reverse]
  · rw [if_neg h]
    have h2 : List.range (s2.length + 1) = rowFor [] [] s2 := by
      rw [rowFor_range]
      simp [List.range_eq_range']
    rw [h2]
    have h3 := levLoop_rowFor s2 s1 []
    rw [show List.length ([] : List Char) = 0 from rfl] at h3
    rw [h3, rowFor_getLast]
    simp

theorem levenshtein_comm (a b : List Char) :
    levenshtein_distance a b = levenshtein_distance b a := by
  unfold levenshtein_distance
  rcases Nat.lt_trichotomy a.length b.length with h | h | h
  · rw [if_pos h, if_neg (by omega)]
  · rw [if_neg (by omega), if_neg (by omega)]
    rw [levCore_eq_levRec, levCore_eq_levRec, levRec_comm]
  · rw [if_neg (by omega), if_pos h]

/-! Symmetry of the token similarity scorer. -/

theorem commonPrefixLen_comm : ∀ a b : List Char, commonPrefixLen a b = commonPrefixLen b a := by
  intro a
  induction a with
  | nil => intro b; cases b <;> rfl
  | cons x xs ih =>
    intro b
    cases b with
    | nil => rfl
    | cons y ys =>
      by_cases h : x = y
      · subst h
        simp only [commonPrefixLen, if_pos rfl]
        rw [ih]
      · simp only [commonPrefixLen, if_neg h, if_neg (Ne.symm h)]

theorem wsFallback_comm (w1 w2 : List Char) : wsFallback w1 w2 = wsFallback w2 w1 := by
  simp only [wsFallback]
  rw [Nat.max_comm w2.length w1.length, Nat.min_comm w2.length w1.length,
    min_comm ((w2.length : ℚ)) ((w1.length : ℚ)),
    levenshtein_comm w2 w1, levenshtein_comm (w2.take 3) (w1.take 3),
    commonPrefixLen_comm w2 w1,
    show ((w2.length : ℤ) - (w1.length : ℤ)).natAbs = ((w1.length : ℤ) - (w2.length : ℤ)).natAbs
      by rw [← Int.natAbs_neg, neg_sub]]
  by_cases h : w1.take 3 = w2.take 3
  · simp [h]
  · simp [h, Ne.symm h]

theorem wsMid_comm (w1 w2 : List Char) : wsMid w1 w2 = wsMid w2 w1 := by
  unfold wsMid
  rw [wsFallback_comm w2 w1, Nat.min_comm w2.length w1.length,
    levenshtein_comm (midOf w2) (midOf w1),
    max_comm (((midOf w2).length : ℚ)) (((midOf w1).length : ℚ)),
    levenshtein_comm w2 w1, max_comm ((w2.length : ℚ)) ((w1.length : ℚ))]
  exact if_congr (by tauto) rfl rfl

theorem wsRoot_comm (w1 w2 : List Char) : wsRoot w1 w2 = wsRoot w2 w1 := by
  unfold wsRoot
  rw [wsMid_comm w2 w1, Nat.min_comm w2.length w1.length]
  exact if_congr (and_congr Iff.rfl (and_congr ne_comm eq_comm)) rfl rfl

theorem word_similarity_comm (a b : List Char) : word_similarity a b = word_similarity b a := by
  simp only [word_similarity]
  rw [wsRoot_comm (removeGreekAccents b) (removeGreekAccents a)]
  exact if_congr eq_comm rfl (if_congr eq_comm rfl (if_congr eq_comm rfl rfl))

/-! Bounds on the token similarity scorer. -/

theorem wsFallback_nonneg (w1 w2 : List Char) : 0 ≤ wsFallback w1 w2 := by
  simp only [wsFallback]
  split
  · norm_num
  · exact le_max_left 0 _

theorem wsFallback_le_one (w1 w2 : List Char) : wsFallback w1 w2 ≤ 1 := by
  simp only [wsFallback]
  split
  · norm_num
  · have hX : (0:ℚ) ≤ (levenshtein_distance w1 w2 : ℚ) / ((max w1.length w2.length : ℕ) : ℚ) :=
      div_nonneg (Nat.cast_nonneg _) (Nat.cast_nonneg _)
    refine max_le (by norm_num) ?_
    split
    · split
      · split
        · exact mul_le_one₀ (max_le (by linarith) (by norm_num)) (by norm_num) (by norm_num)
        · nlinarith
      · nlinarith
    · split
      · split
        · exact max_le (by linarith) (by norm_num)
        · linarith
      · linarith

theorem wsMid_nonneg (w1 w2 : List Char) : 0 ≤ wsMid w1 w2 := by
  unfold wsMid
  split
  · exact le_max_left 0 _
  · exact wsFallback_nonneg w1 w2

theorem wsMid_le_one (w1 w2 : List Char) : wsMid w1 w2 ≤ 1 := by
  unfold wsMid
  split
  · have hX : (0:ℚ) ≤ (levenshtein_distance w1 w2 : ℚ) /
        (max ((w1.length : ℚ)) ((w2.length : ℚ))) := by positivity
    refine max_le (by norm_num) (by linarith)
  · exact wsFallback_le_one w1 w2

theorem wsRoot_nonneg (w1 w2 : List Char) : 0 ≤ wsRoot w1 w2 := by
  unfold wsRoot
  split
  · norm_num
  · exact wsMid_nonneg w1 w2

theorem wsRoot_le_one (w1 w2 : List Char) : wsRoot w1 w2 ≤ 1 := by
  unfold wsRoot
  split
  · norm_num
  · exact wsMid_le_one w1 w2

theorem word_similarity_nonneg (a b : List Char) : 0 ≤ word_similarity a b := by
  simp only [word_similarity]
  split
  · norm_num
  · split
    · norm_num
    · split
      · norm_num
      · exact wsRoot_nonneg _ _

theorem word_similarity_le_one (a b : List Char) : word_similarity a b ≤ 1 := by
  simp only [word_similarity]
  split
  · norm_num
  · split
    · norm_num
    · split
      · norm_num
      · exact wsRoot_le_one _ _

/-! Similarity against the empty word. -/

theorem splitWsAux_eq_nil : ∀ (s acc : List Char),
    splitWsAux s acc = [] ↔ (acc = [] ∧ ∀ c ∈ s, isSpaceCh c = true) := by
  intro s
  induction s with
  | nil =>
    intro acc
    by_cases h : acc = [] <;> simp [splitWsAux, h]
  | cons a s ih =>
    intro acc
    by_cases hsp : isSpaceCh a = true
    · by_cases h : acc = []
      · simp only [splitWsAux, hsp, if_true, h, if_pos]
        rw [ih []]
        simp [h, hsp]
      · simp [splitWsAux, hsp, h]
    · simp only [splitWsAux, hsp, Bool.false_eq_true, if_false]
      rw [ih (a :: acc)]
      simp [hsp]

theorem splitWs_eq_nil (s : List Char) :
    splitWs s = [] ↔ ∀ c ∈ s, isSpaceCh c = true := by
  rw [show splitWs s = splitWsAux s [] from rfl, splitWsAux_eq_nil]
  simp

theorem splitWs_map_accentFold_ne_nil {w : List Char} (h : splitWs w ≠ []) :
    splitWs (removeGreekAccents w) ≠ [] := by
  intro hcon
  apply h
  rw [splitWs_eq_nil] at hcon ⊢
  intro c hc
  have := hcon (accentFold c) (List.mem_map_of_mem _ hc)
  rwa [isSpaceCh_accentFold] at this

theorem replaceDigraph_ne_nil (a b r : Char) :
    ∀ l : List Char, l ≠ [] → replaceDigraph a b r l ≠ [] := by
  intro l hl
  match l with
  | [x] => simp [replaceDigraph]
  | x :: y :: rest =>
    simp only [replaceDigraph]
    split <;> simp

theorem iSoundWord_ne_nil {w : List Char} (h : w ≠ []) : iSoundWord w ≠ [] := by
  unfold iSoundWord
  split
  · exact h
  · have h1 := replaceDigraph_ne_nil 'ο' 'ι' 'ι' w h
    have h2 := replaceDigraph_ne_nil 'ε' 'ι' 'ι' _ h1
    have h3 := replaceDigraph_ne_nil 'υ' 'ι' 'ι' _ h2
    simpa using h3

theorem normalize_greek_i_sound_ne_nil {w : List Char} (h : splitWs w ≠ []) :
    normalize_greek_i_sound w ≠ [] := by
  have hw : w ≠ [] := by
    intro hc
    subst hc
    exact h rfl
  unfold normalize_greek_i_sound
  rw [if_neg hw]
  obtain ⟨v, rest, hv⟩ : ∃ v rest, splitWs w = v :: rest := by
    cases hsw : splitWs w with
    | nil => exact absurd hsw h
    | cons v rest => exact ⟨v, rest, rfl⟩
  rw [hv, List.map_cons]
  exact joinWords_ne_nil _ _ (iSoundWord_ne_nil (mem_splitWs_ok w v (hv ▸ List.mem_cons_self _ _)).1)

theorem lev_nil_left {w : List Char} (h : w ≠ []) :
    levenshtein_distance [] w = w.length := by
  unfold levenshtein_distance
  rw [if_pos (by simpa using List.length_pos.mpr h)]
  unfold levCore
  simp

theorem wsFallback_nil_left {w : List Char} (h : w ≠ []) :
    wsFallback [] w = (if w.length ≤ 1 then 7/10 else 0) := by
  have hlen0 : w.length ≠ 0 := by simpa using h
  have hlev : levenshtein_distance [] w = w.length := lev_nil_left h
  have hcp : commonPrefixLen [] w = 0 := by cases w <;> rfl
  simp only [wsFallback, List.length_nil, hlev, hcp, Nat.zero_max, Nat.cast_zero,
    CharP.cast_eq_zero, zero_sub, Int.natAbs_neg, Int.natAbs_ofNat, Nat.cast_ofNat]
  rw [if_neg hlen0]
  have hdiv : 1 - (w.length : ℚ) / (w.length : ℚ) = 0 := by
    rw [div_self (by exact_mod_cast hlen0)]
    norm_num
  rw [hdiv]
  have h4 : ¬(4 ≤ min 0 w.length ∧ List.take 3 [] ≠ List.take 3 w ∧
      1 - (levenshtein_distance (List.take 3 []) (List.take 3 w) : ℚ) / 3 < 67/100) := by
    intro hcon
    have := hcon.1
    omega
  rw [if_neg h4]
  have hmin : min (0 : ℚ) ((w.length : ℚ)) * (8/10) ≤ (0 : ℚ) := by
    have h1 : min (0 : ℚ) ((w.length : ℚ)) ≤ 0 := min_le_left _ _
    have h2 : min (0 : ℚ) ((w.length : ℚ)) * (8/10) ≤ 0 * (8/10) :=
      mul_le_mul_of_nonneg_right h1 (by norm_num)
    calc min (0 : ℚ) ((w.length : ℚ)) * (8/10) ≤ 0 * (8/10) := h2
      _ = 0 := by norm_num
  have hmax : (0 : ℚ) ⊔ (7/10) = 7/10 := max_eq_right (by norm_num)
  by_cases hle : w.length ≤ 1
  · rw [if_pos hle, if_pos hle, if_pos hmin, hmax, hmax]
  · rw [if_neg hle, if_neg hle]
    simp

theorem word_similarity_nil_left {w : List Char} (hw : splitWs w ≠ []) :
    word_similarity [] w = (if w.length ≤ 1 then 7/10 else 0) := by
  have hwne : w ≠ [] := by
    intro hc
    subst hc
    exact hw rfl
  have ha2 : List.map accentFold w ≠ [] := by simpa using hwne
  have hi2 : normalize_greek_i_sound (List.map accentFold w) ≠ [] :=
    normalize_greek_i_sound_ne_nil (splitWs_map_accentFold_ne_nil hw)
  simp only [word_similarity, removeGreekAccents, List.map_nil]
  rw [if_neg (fun hc => hwne hc.symm), if_neg (fun hc => ha2 hc.symm)]
  rw [if_neg (show ¬(normalize_greek_i_sound [] = normalize_greek_i_sound (List.map accentFold w))
    from fun hc => hi2 (hc ▸ rfl))]
  have hroot : wsRoot [] (List.map accentFold w) = wsFallback [] (List.map accentFold w) := by
    unfold wsRoot wsMid
    rw [if_neg (by simp), if_neg (by simp)]
  rw [hroot, wsFallback_nil_left ha2]
  rw [List.length_map]

theorem word_similarity_nil_le_left {w : List Char} (hw : splitWs w ≠ []) :
    word_similarity [] w ≤ 7/10 := by
  rw [word_similarity_nil_left hw]
  split <;> norm_num

theorem word_similarity_nil_le_right {w : List Char} (hw : splitWs w ≠ []) :
    word_similarity w [] ≤ 7/10 := by
  rw [word_similarity_comm]
  exact word_similarity_nil_le_left hw

/-! Bounds on the greedy pass and the boost stages of `compare_texts`. -/

theorem bestUnclaimed_fst_bounds (matched : List (List Char)) (cword : List Char) :
    ∀ (l : List (List Char)) (acc : ℚ × Option (List Char)),
      0 ≤ acc.1 → acc.1 ≤ 1 →
      0 ≤ (bestUnclaimed matched cword l acc).1 ∧ (bestUnclaimed matched cword l acc).1 ≤ 1 := by
  intro l
  induction l with
  | nil => intro acc h0 h1; exact ⟨h0, h1⟩
  | cons u rest ih =>
    intro acc h0 h1
    simp only [bestUnclaimed]
    split
    · exact ih acc h0 h1
    · split
      · exact ih _ (word_similarity_nonneg _ _) (word_similarity_le_one _ _)
      · exact ih acc h0 h1

theorem greedyLoop_bounds (umw : List (List Char)) :
    ∀ (l : List (List Char)) (tot : ℚ) (matched : List (List Char)),
      tot ≤ greedyLoop umw l tot matched ∧
      greedyLoop umw l tot matched ≤ tot + (l.length : ℚ) := by
  intro l
  induction l with
  | nil => intro tot matched; simp [greedyLoop]
  | cons cword rest ih =>
    intro tot matched
    simp only [greedyLoop]
    have hb := bestUnclaimed_fst_bounds matched cword umw (0, none) (le_refl 0) (by norm_num)
    constructor
    · calc tot ≤ tot + (bestUnclaimed matched cword umw (0, none)).1 := by linarith [hb.1]
        _ ≤ _ := (ih _ _).1
    · calc greedyLoop umw rest (tot + (bestUnclaimed matched cword umw (0, none)).1) _
          ≤ (tot + (bestUnclaimed matched cword umw (0, none)).1) + (rest.length : ℚ) :=
            (ih _ _).2
        _ ≤ tot + ((cword :: rest).length : ℚ) := by
            simp only [List.length_cons]
            push_cast
            linarith [hb.2]

theorem mainScore_bounds (um cm : List (List Char)) :
    0 ≤ mainScore um cm ∧ mainScore um cm ≤ 1 := by
  unfold mainScore
  split
  · rename_i h
    have hlen : (0:ℚ) < (cm.length : ℚ) := by
      exact_mod_cast List.length_pos.mpr h
    have hg := greedyLoop_bounds um cm 0 []
    constructor
    · exact div_nonneg (by linarith [hg.1]) (le_of_lt hlen)
    · rw [div_le_one hlen]
      linarith [hg.2]
  · norm_num

theorem ctPhase1_fst_cases (ua ca um cm uw cw : List (List Char)) :
    (ctPhase1 ua ca um cm uw cw).1 = mainScore um cm ∨
    (ctPhase1 ua ca um cm uw cw).1 = mainScore um cm * (7/10) ∨
    (ctPhase1 ua ca um cm uw cw).1 = mainScore uw cw := by
  simp only [ctPhase1]
  split
  · split
    · exact Or.inl rfl
    split
    · exact Or.inr (Or.inl rfl)
    split
    · exact Or.inl rfl
    split
    · exact Or.inl rfl
    split
    · exact Or.inl rfl
    · exact Or.inr (Or.inl rfl)
  · exact Or.inr (Or.inr rfl)

theorem ctPhase1_fst_bounds (ua ca um cm uw cw : List (List Char)) :
    0 ≤ (ctPhase1 ua ca um cm uw cw).1 ∧ (ctPhase1 ua ca um cm uw cw).1 ≤ 1 := by
  have h1 := mainScore_bounds um cm
  have h2 := mainScore_bounds uw cw
  rcases ctPhase1_fst_cases ua ca um cm uw cw with h | h | h <;> rw [h]
  · exact h1
  · constructor
    · exact mul_nonneg h1.1 (by norm_num)
    · nlinarith [h1.1, h1.2]
  · exact h2

theorem ctPhase2_cases (fs0 : ℚ) (um cm : List (List Char)) (ss : ℚ) :
    ctPhase2 fs0 um cm ss = fs0 ∨ ctPhase2 fs0 um cm ss = max fs0 (ss * (95/100)) := by
  unfold ctPhase2
  split
  · split
    · exact Or.inr rfl
    · exact Or.inl rfl
  · split
    · exact Or.inr rfl
    · exact Or.inl rfl

theorem ctPhase2_nonneg (fs0 : ℚ) (um cm : List (List Char)) (ss : ℚ) (h : 0 ≤ fs0) :
    0 ≤ ctPhase2 fs0 um cm ss := by
  rcases ctPhase2_cases fs0 um cm ss with hc | hc <;> rw [hc]
  · exact h
  · exact le_trans h (le_max_left _ _)

theorem ctPhase2_le_one (fs0 : ℚ) (um cm : List (List Char)) (ss : ℚ)
    (h : fs0 ≤ 1) (hss : ss ≤ 1) : ctPhase2 fs0 um cm ss ≤ 1 := by
  rcases ctPhase2_cases fs0 um cm ss with hc | hc <;> rw [hc]
  · exact h
  · exact max_le h (by linarith)

theorem foldl_max_bounds (u : List Char) :
    ∀ (cs : List (List Char)) (acc : ℚ), 0 ≤ acc → acc ≤ 1 →
      0 ≤ cs.foldl (fun b c => max b (word_similarity u c)) acc ∧
      cs.foldl (fun b c => max b (word_similarity u c)) acc ≤ 1 := by
  intro cs
  induction cs with
  | nil => intro acc h0 h1; exact ⟨h0, h1⟩
  | cons c rest ih =>
    intro acc h0 h1
    simp only [List.foldl_cons]
    exact ih _ (le_trans h0 (le_max_left _ _))
      (max_le h1 (word_similarity_le_one _ _))

theorem maxPairSim_bounds (us cs : List (List Char)) :
    0 ≤ maxPairSim us cs ∧ maxPairSim us cs ≤ 1 := by
  unfold maxPairSim
  suffices h : ∀ (l : List (List Char)) (acc : ℚ), 0 ≤ acc → acc ≤ 1 →
      0 ≤ l.foldl (fun acc u => cs.foldl (fun b c => max b (word_similarity u c)) acc) acc ∧
      l.foldl (fun acc u => cs.foldl (fun b c => max b (word_similarity u c)) acc) acc ≤ 1 by
    exact h us 0 (le_refl 0) (by norm_num)
  intro l
  induction l with
  | nil => intro acc h0 h1; exact ⟨h0, h1⟩
  | cons u rest ih =>
    intro acc h0 h1
    simp only [List.foldl_cons]
    have := foldl_max_bounds u cs acc h0 h1
    exact ih _ this.1 this.2

theorem ctPhase3_fst_cases (fs1 : ℚ) (ic0 : Bool) (ua ca um cm uw cw : List (List Char)) :
    (ctPhase3 fs1 ic0 ua ca um cm uw cw).1 = fs1 ∨
    (ctPhase3 fs1 ic0 ua ca um cm uw cw).1 = max fs1 (maxPairSim um cm * (95/100)) ∨
    (ctPhase3 fs1 ic0 ua ca um cm uw cw).1 = max fs1 (maxPairSim uw cw * (95/100)) := by
  simp only [ctPhase3]
  split
  · split
    · split
      · split
        · exact Or.inr (Or.inl rfl)
        split
        · exact Or.inr (Or.inl rfl)
        · exact Or.inr (Or.inl rfl)
      · exact Or.inl rfl
    · split
      · split
        · exact Or.inr (Or.inr rfl)
        · exact Or.inr (Or.inr rfl)
      · exact Or.inl rfl
  · exact Or.inl rfl

theorem ctPhase3_fst_nonneg (fs1 : ℚ) (ic0 : Bool) (ua ca um cm uw cw : List (List Char))
    (h : 0 ≤ fs1) : 0 ≤ (ctPhase3 fs1 ic0 ua ca um cm uw cw).1 := by
  rcases ctPhase3_fst_cases fs1 ic0 ua ca um cm uw cw with hc | hc | hc <;> rw [hc]
  · exact h
  · exact le_trans h (le_max_left _ _)
  · exact le_trans h (le_max_left _ _)

theorem ctPhase3_fst_le_one (fs1 : ℚ) (ic0 : Bool) (ua ca um cm uw cw : List (List Char))
    (h : fs1 ≤ 1) : (ctPhase3 fs1 ic0 ua ca um cm uw cw).1 ≤ 1 := by
  rcases ctPhase3_fst_cases fs1 ic0 ua ca um cm uw cw with hc | hc | hc <;> rw [hc]
  · exact h
  · exact max_le h (by linarith [(maxPairSim_bounds um cm).2])
  · exact max_le h (by linarith [(maxPairSim_bounds uw cw).2])

/-! Case analysis of the two entry points. -/

theorem compare_texts_cases (a b : List Char) :
    compare_texts a b = (false, 0) ∨ compare_texts a b = (true, 1) ∨
    compare_texts a b = (true, 98/100) ∨
    (∃ s : ℚ, compare_texts a b = (decide (8/10 ≤ s), s) ∧ 0 ≤ s ∧ s ≤ 7/10) ∨
    (∃ p : ℚ × Bool,
      compare_texts a b = (if p.2 then decide (82/100 ≤ p.1) else false, p.1) ∧
      0 ≤ p.1 ∧ p.1 ≤ 1) := by
  simp only [compare_texts]
  by_cases h0 : a = []
  · rw [if_pos h0]
    exact Or.inl rfl
  rw [if_neg h0]
  by_cases h1 : normalize_text (userAdjusted a) = normalize_text b
  · rw [if_pos h1]
    exact Or.inr (Or.inl rfl)
  rw [if_neg h1]
  by_cases h2 : normalize_greek_i_sound (normalize_text (userAdjusted a))
      = normalize_greek_i_sound (normalize_text b)
  · rw [if_pos h2]
    exact Or.inr (Or.inr (Or.inl rfl))
  rw [if_neg h2]
  by_cases h3 : (splitWs (normalize_text (userAdjusted a))).length = 0 ∨
      (splitWs (normalize_text b)).length = 0
  · rw [if_pos h3]
    refine Or.inr (Or.inr (Or.inr (Or.inl ⟨_, rfl,
      word_similarity_nonneg _ _, ?_⟩)))
    rcases h3 with h3 | h3
    · have hun : normalize_text (userAdjusted a) = [] := by
        apply normalize_text_of_no_words
        rw [← splitWs_normalize_text]
        exact List.length_eq_zero.mp h3
      have hcw : splitWs (normalize_text b) ≠ [] := by
        intro hc
        apply h1
        rw [hun, normalize_text_of_no_words b (by rw [← splitWs_normalize_text]; exact hc)]
      rw [hun]
      exact word_similarity_nil_le_left hcw
    · have hcn : normalize_text b = [] := by
        apply normalize_text_of_no_words
        rw [← splitWs_normalize_text]
        exact List.length_eq_zero.mp h3
      have huw : splitWs (normalize_text (userAdjusted a)) ≠ [] := by
        intro hc
        apply h1
        rw [hcn, normalize_text_of_no_words _ (by rw [← splitWs_normalize_text]; exact hc)]
      rw [hcn]
      exact word_similarity_nil_le_right huw
  · rw [if_neg h3]
    refine Or.inr (Or.inr (Or.inr (Or.inr ⟨_, rfl, ?_, ?_⟩)))
    · apply ctPhase3_fst_nonneg
      apply ctPhase2_nonneg
      exact (ctPhase1_fst_bounds _ _ _ _ _ _).1
    · apply ctPhase3_fst_le_one
      apply ctPhase2_le_one
      · exact (ctPhase1_fst_bounds _ _ _ _ _ _).2
      · exact word_similarity_le_one _ _

theorem refLoop_length_le (uw : List (List Char)) :
    ∀ (cws : List (List Char)) (ci ui : Nat) (ms : List Mistake),
      (refLoop uw cws ci ui ms).2.length ≤ ms.length + cws.length := by
  intro cws
  induction cws with
  | nil => intro ci ui ms; simp [refLoop]
  | cons cword rest ih =>
    intro ci ui ms
    simp only [refLoop]
    split
    · split
      · exact le_trans (ih _ _ _) (by simp only [List.length_cons]; omega)
      · split
        · refine le_trans (ih _ _ _) ?_
          simp only [List.length_append, List.length_cons, List.length_nil]
          omega
        · refine le_trans (ih _ _ _) ?_
          simp only [List.length_append, List.length_cons, List.length_nil]
          omega
    · refine le_trans (ih _ _ _) ?_
      simp only [List.length_append, List.length_cons, List.length_nil]
      omega

theorem extraLoop_length_le (cw : List (List Char)) :
    ∀ l : List (List Char), (extraLoop cw l).length ≤ l.length := by
  intro l
  induction l with
  | nil => simp [extraLoop]
  | cons w rest ih =>
    simp only [extraLoop]
    split
    · simp only [List.length_append, List.length_cons, List.length_nil]
      omega
    · simp only [List.nil_append, List.length_cons]
      omega

theorem compare_texts_detailed_cases (a b : List Char) :
    compare_texts_detailed a b = (false, 0, []) ∨
    compare_texts_detailed a b = (true, 1, []) ∨
    compare_texts_detailed a b = (true, 98/100, []) ∨
    (∃ (sim : ℚ) (ms : List Mistake),
      compare_texts_detailed a b = (decide (85/100 ≤ sim) && decide (ms.length = 0), sim, ms) ∧
      -1 ≤ sim ∧ sim ≤ 1) := by
  simp only [compare_texts_detailed]
  by_cases h0 : a = []
  · rw [if_pos h0]
    exact Or.inl rfl
  rw [if_neg h0]
  by_cases h1 : normalize_text (userAdjusted a) = normalize_text b
  · rw [if_pos h1]
    exact Or.inr (Or.inl rfl)
  rw [if_neg h1]
  by_cases h2 : normalize_greek_i_sound (normalize_text (userAdjusted a))
      = normalize_greek_i_sound (normalize_text b)
  · rw [if_pos h2]
    exact Or.inr (Or.inr (Or.inl rfl))
  rw [if_neg h2]
  refine Or.inr (Or.inr (Or.inr ⟨_, _, rfl, ?_, ?_⟩))
  all_goals {
    set uw := splitWs (normalize_text (userAdjusted a)) with huw
    set cw := splitWs (normalize_text b) with hcw
    set r := refLoop uw cw 0 0 [] with hr
    set ms := r.2 ++ extraLoop cw (uw.drop r.1) with hms
    have hml : ms.length ≤ cw.length + uw.length := by
      rw [hms, List.length_append]
      have h3 := refLoop_length_le uw cw 0 0 []
      rw [← hr] at h3
      have h4 := extraLoop_length_le cw (uw.drop r.1)
      have h5 : (uw.drop r.1).length ≤ uw.length := by
        rw [List.length_drop]
        omega
      simp only [List.length_nil, Nat.zero_add] at h3
      omega
    by_cases ht : 0 < max uw.length cw.length
    · rw [if_pos ht]
      have hT : (0:ℚ) < ((max uw.length cw.length : ℕ) : ℚ) := by exact_mod_cast ht
      have hM0 : (0:ℚ) ≤ (ms.length : ℚ) := Nat.cast_nonneg _
      have hM2 : (ms.length : ℚ) ≤ 2 * ((max uw.length cw.length : ℕ) : ℚ) := by
        have h6 : ms.length ≤ 2 * max uw.length cw.length := by omega
        exact_mod_cast h6
      first
      | (rw [le_div_iff₀ hT]; linarith)
      | (rw [div_le_one hT]; linarith)
    · rw [if_neg ht]
      norm_num
  }

/-! Monotonicity of the reference-loop mistake positions. -/

theorem chain_append_position (ms : List Mistake) (ci : Nat) (rec cor : Option (List Char))
    (sim : ℚ)
    (hch : List.Chain' (· ≤ ·) (ms.map Mistake.position))
    (hub : ∀ x ∈ ms, x.position ≤ ci) :
    List.Chain' (· ≤ ·) ((ms ++ [(⟨ci, rec, cor, sim⟩ : Mistake)]).map Mistake.position) ∧
    ∀ x ∈ ms ++ [(⟨ci, rec, cor, sim⟩ : Mistake)], x.position ≤ ci + 1 := by
  set m : Mistake := (⟨ci, rec, cor, sim⟩ : Mistake) with hmdef
  have hm : m.position = ci := rfl
  constructor
  · rw [List.map_append]
    refine List.Chain'.append hch (by simp) ?_
    intro x hx y hy
    simp only [List.map_cons, List.map_nil, List.head?_cons, Option.mem_def,
      Option.some.injEq] at hy
    have hx2 := List.mem_of_mem_getLast? hx
    obtain ⟨u, hu, hux⟩ := List.mem_map.mp hx2
    rw [← hy, ← hux]
    exact hub u hu
  · intro x hx
    rcases List.mem_append.mp hx with hin | hin
    · exact le_trans (hub x hin) (Nat.le_succ _)
    · simp only [List.mem_singleton] at hin
      subst hin
      omega

theorem refLoop_positions_mono (uw : List (List Char)) :
    ∀ (cws : List (List Char)) (ci ui : Nat) (ms : List Mistake),
      List.Chain' (· ≤ ·) (ms.map Mistake.position) →
      (∀ m ∈ ms, m.position ≤ ci) →
      List.Chain' (· ≤ ·) ((refLoop uw cws ci ui ms).2.map Mistake.position) := by
  intro cws
  induction cws with
  | nil =>
    intro ci ui ms hch _
    simpa [refLoop] using hch
  | cons cword rest ih =>
    intro ci ui ms hch hub
    simp only [refLoop]
    split
    · split
      · exact ih _ _ _ hch (fun m hm => le_trans (hub m hm) (Nat.le_succ _))
      · split
        · exact ih _ _ _ (chain_append_position ms ci _ _ _ hch hub).1
            (chain_append_position ms ci _ _ _ hch hub).2
        · exact ih _ _ _ (chain_append_position ms ci _ _ _ hch hub).1
            (chain_append_position ms ci _ _ _ hch hub).2
    · exact ih _ _ _ (chain_append_position ms ci _ _ _ hch hub).1
        (chain_append_position ms ci _ _ _ hch hub).2

theorem detailed_mistakes_decomp (a b : List Char) :
    (compare_texts_detailed a b).2.2 = (detailedParts a b).1 ++ (detailedParts a b).2 := by
  simp only [compare_texts_detailed, detailedParts]
  by_cases h0 : a = []
  · rw [if_pos h0, if_pos h0]
    rfl
  rw [if_neg h0, if_neg h0]
  by_cases h1 : normalize_text (userAdjusted a) = normalize_text b
  · rw [if_pos h1, if_pos h1]
    rfl
  rw [if_neg h1, if_neg h1]
  by_cases h2 : normalize_greek_i_sound (normalize_text (userAdjusted a))
      = normalize_greek_i_sound (normalize_text b)
  · rw [if_pos h2, if_pos h2]
    rfl
  rw [if_neg h2, if_neg h2]

theorem detailedParts_fst_chain (a b : List Char) :
    List.Chain' (· ≤ ·) ((detailedParts a b).1.map Mistake.position) := by
  simp only [detailedParts]
  by_cases h0 : a = []
  · rw [if_pos h0]
    simp
  rw [if_neg h0]
  by_cases h1 : normalize_text (userAdjusted a) = normalize_text b
  · rw [if_pos h1]
    simp
  rw [if_neg h1]
  by_cases h2 : normalize_greek_i_sound (normalize_text (userAdjusted a))
      = normalize_greek_i_sound (normalize_text b)
  · rw [if_pos h2]
    simp
  rw [if_neg h2]
  exact refLoop_positions_mono _ _ 0 0 [] (by simp) (by simp)

/-! Rejection on article mismatch. -/

theorem ctPhase1_snd_false (ua ca um cm uw cw : List (List Char))
    (hum : um ≠ []) (hcm : cm ≠ []) (hms : 85/100 ≤ mainScore um cm) (ham : ua ≠ ca) :
    (ctPhase1 ua ca um cm uw cw).2 = false := by
  simp only [ctPhase1]
  rw [if_pos ⟨hum, hcm⟩, if_neg (fun hc => ham hc.2), if_pos ⟨hms, ham⟩]

theorem ctPhase3_snd_false (fs1 : ℚ) (ua ca um cm uw cw : List (List Char))
    (hum : um ≠ []) (hcm : cm ≠ []) (ham : ua ≠ ca) :
    (ctPhase3 fs1 false ua ca um cm uw cw).2 = false := by
  simp only [ctPhase3]
  split
  · rw [if_pos ⟨hum, hcm⟩]
    split
    · rw [if_neg (fun hc => ham hc.2)]
      split
      · rfl
      · rfl
    · rfl
  · rfl

/-! Claim theorems. -/

/-- C1: whenever an entry point reports `accepted = true`, the reported
similarity clears the applicable threshold — 0.82 for `compare_texts`
(enforced by its final gate, with the zero-token branch unreachable for
accepted results since a whole-string comparison against an empty normalised
text scores at most 0.7), and 0.85 with an empty mistake list for
`compare_texts_detailed` (its acceptance flag is exactly that conjunction). -/
theorem c1_accepted_implies_threshold (a b : List Char) :
    ((compare_texts a b).1 = true → 82/100 ≤ (compare_texts a b).2) ∧
    ((compare_texts_detailed a b).1 = true →
      85/100 ≤ (compare_texts_detailed a b).2.1 ∧ (compare_texts_detailed a b).2.2 = []) := by
  constructor
  · intro hacc
    rcases compare_texts_cases a b with h | h | h | ⟨s, h, hs0, hs7⟩ | ⟨p, h, hp0, hp1⟩ <;>
      rw [h] at hacc ⊢
    · simp at hacc
    · norm_num
    · norm_num
    · exfalso
      have h8 : (8:ℚ)/10 ≤ s := of_decide_eq_true hacc
      linarith
    · show (82:ℚ)/100 ≤ p.1
      replace hacc : (if p.2 = true then decide (82/100 ≤ p.1) else false) = true := hacc
      by_cases hic : p.2 = true
      · rw [if_pos hic] at hacc
        exact of_decide_eq_true hacc
      · rw [if_neg hic] at hacc
        simp at hacc
  · intro hacc
    rcases compare_texts_detailed_cases a b with h | h | h | ⟨sim, ms, h, hm1, hm2⟩ <;>
      rw [h] at hacc ⊢
    · simp at hacc
    · exact ⟨by norm_num, rfl⟩
    · exact ⟨by norm_num, rfl⟩
    · replace hacc : (decide (85/100 ≤ sim) && decide (ms.length = 0)) = true := hacc
      rw [Bool.and_eq_true] at hacc
      refine ⟨of_decide_eq_true hacc.1, ?_⟩
      show ms = []
      exact List.length_eq_zero.mp (of_decide_eq_true hacc.2)

/-- Witness for C1 at the concrete accepted pair `("ναι","ναι")`. -/
theorem c1_accepted_implies_threshold_witness :
    82/100 ≤ (compare_texts "ναι".data "ναι".data).2 ∧
    85/100 ≤ (compare_texts_detailed "ναι".data "ναι".data).2.1 ∧
    (compare_texts_detailed "ναι".data "ναι".data).2.2 = [] :=
  ⟨(c1_accepted_implies_threshold "ναι".data "ναι".data).1 (by decide),
   (c1_accepted_implies_threshold "ναι".data "ναι".data).2 (by decide)⟩

/-- C2 (amended): `word_similarity` always lands in [0,1] and so does the
similarity of `compare_texts`; the similarity of `compare_texts_detailed` is
at most 1 but only bounded below by -1, because the aggregate
`(total - count(mistakes)) / total` has no floor and the mistake count can
reach twice the token count. -/
theorem c2_similarity_bounds (a b : List Char) :
    (0 ≤ word_similarity a b ∧ word_similarity a b ≤ 1) ∧
    (0 ≤ (compare_texts a b).2 ∧ (compare_texts a b).2 ≤ 1) ∧
    (-1 ≤ (compare_texts_detailed a b).2.1 ∧ (compare_texts_detailed a b).2.1 ≤ 1) := by
  refine ⟨⟨word_similarity_nonneg a b, word_similarity_le_one a b⟩, ?_, ?_⟩
  · rcases compare_texts_cases a b with h | h | h | ⟨s, h, hs0, hs7⟩ | ⟨p, h, hp0, hp1⟩ <;>
      rw [h]
    · exact ⟨le_refl 0, by norm_num⟩
    · exact ⟨by norm_num, le_refl 1⟩
    · exact ⟨by norm_num, by norm_num⟩
    · exact ⟨hs0, by linarith⟩
    · exact ⟨hp0, hp1⟩
  · rcases compare_texts_detailed_cases a b with h | h | h | ⟨sim, ms, h, hm1, hm2⟩ <;>
      rw [h]
    · exact ⟨by norm_num, by norm_num⟩
    · exact ⟨by norm_num, le_refl 1⟩
    · exact ⟨by norm_num, by norm_num⟩
    · exact ⟨hm1, hm2⟩

/-- C3 (amended): the mistake list of `compare_texts_detailed` is the block
produced by the reference loop followed by the extra-word block, and the
positions within the reference-loop block are monotonically non-decreasing;
the extra-word records appended afterwards may carry smaller positions. -/
theorem c3_refloop_positions_monotone (a b : List Char) :
    (compare_texts_detailed a b).2.2 = (detailedParts a b).1 ++ (detailedParts a b).2 ∧
    List.Chain' (· ≤ ·) ((detailedParts a b).1.map Mistake.position) :=
  ⟨detailed_mistakes_decomp a b, detailedParts_fst_chain a b⟩

/-- C10 (amended): for every single-character candidate that is not a
whitespace character, the empty string scores exactly 0.7 against it in both
argument orders (the common-prefix floor boost fires vacuously for length
difference 1); a whitespace character instead scores 0.92 (both sides
canonicalise to the empty string). -/
theorem c10_empty_vs_single_char (c : Char) (h : isSpaceCh c = false) :
    word_similarity [] [c] = 7/10 ∧ word_similarity [c] [] = 7/10 := by
  have h1 : splitWs [c] ≠ [] := by
    rw [Ne, splitWs_eq_nil]
    intro hcon
    have h2 := hcon c (List.mem_cons_self _ _)
    rw [h] at h2
    exact Bool.false_ne_true h2
  have h2 := word_similarity_nil_left h1
  rw [List.length_cons, List.length_nil, if_pos (by omega)] at h2
  exact ⟨h2, by rw [word_similarity_comm]; exact h2⟩

/-- Witness for C10 (amended) at the letter 'α'. -/
theorem c10_empty_vs_single_char_witness :
    word_similarity [] ['α'] = 7/10 ∧ word_similarity ['α'] [] = 7/10 :=
  c10_empty_vs_single_char 'α' (by decide)

/-- C4: `word_similarity` is exactly symmetric — every stage of the ladder,
including the edit-distance fallback (the implementation swaps its arguments
so that the longer string comes first) and its prefix/middle-segment
adjustments, is invariant under swapping the two words. -/
theorem c4_word_similarity_symmetric (a b : List Char) :
    word_similarity a b = word_similarity b a :=
  word_similarity_comm a b

/-- C5 counterexample: normalisation is not idempotent.  `"15."` is not a pure
digit string, so the numeral substitution is skipped and normalisation yields
the bare digit string `"15"`; a second pass spells that out as a Greek
numeral, changing the result. -/
theorem c5_not_idempotent_on_dotted_digits :
    normalize_text "15.".data = "15".data ∧
    normalize_text (normalize_text "15.".data) = "δεκαπεντε".data ∧
    normalize_text (normalize_text "15.".data) ≠ normalize_text "15.".data := by decide

/-- C5 (amended): `normalize_text` is idempotent on every input whose
normalised form is not a pure digit string convertible by `number_to_greek`;
it fails exactly when the first pass produces such a bare digit string (as
with inputs like `"15."` whose punctuation hides the digits from the
numeral pre-substitution). -/
theorem c5_idempotent_unless_digit_result (s : List Char)
    (h : ¬(isDigitStr (stripChars (normalize_text s)) = true ∧
      (number_to_greek (stripChars (normalize_text s))).isSome = true)) :
    normalize_text (normalize_text s) = normalize_text s :=
  normalize_text_idem_aux s h

/-- Witness for C5 (amended) at the concrete input `"εγώ"`. -/
theorem c5_idempotent_unless_digit_result_witness :
    normalize_text (normalize_text "εγώ".data) = normalize_text "εγώ".data :=
  c5_idempotent_unless_digit_result "εγώ".data (by decide)

/-- C6 counterexample: the accent-only pair is accepted with similarity
exactly 1.0, not approximately 0.98 — `normalize_text` itself strips accents,
so the pair hits the exact-match path before the canonicalisation path. -/
theorem c6_similarity_is_one_not_098 :
    compare_texts "εγω".data "εγώ".data = (true, 1) ∧ (1 : ℚ) ≠ 98/100 := by decide

/-- C6 (amended): `grade_phrase("εγω","εγώ")` is accepted with similarity 1.0
(accent-insensitive equality is already produced by normalisation, so the
0.98 canonicalisation shortcut is never reached for accent-only
differences). -/
theorem c6_accent_tolerance_exact :
    compare_texts "εγω".data "εγώ".data = (true, 1) := by decide

/-- C8: the numeral speller is a fixed table-driven function with the five
stated values. -/
theorem c8_numeral_table_values :
    number_to_greek "15".data = some "δεκαπέντε".data ∧
    number_to_greek "21".data = some "είκοσι ένα".data ∧
    number_to_greek "100".data = some "εκατό".data ∧
    number_to_greek "1000".data = some "χίλια".data ∧
    number_to_greek "1500".data = none := by decide

/-- C9: an empty candidate yields a rejecting result from both entry points,
for every reference string, without raising (both functions are total Lean
functions). -/
theorem c9_empty_candidate_rejects (r : List Char) :
    compare_texts [] r = (false, 0) ∧ compare_texts_detailed [] r = (false, 0, []) :=
  ⟨rfl, rfl⟩

/-- C2 counterexample: `compare_texts_detailed` can report a similarity
below 0.0 — with one recognised and one reference word that are completely
dissimilar, the aligner emits two mistakes against a token count of one and
the aggregate `(1 - 2) / 1 = -1` is negative. -/
theorem c2_similarity_below_zero :
    (compare_texts_detailed "ββ".data "αα".data).2.1 = -1 ∧
    ¬(0 ≤ (compare_texts_detailed "ββ".data "αα".data).2.1) := by decide

/-- C3 counterexample: the mistake positions of `compare_texts_detailed` are
not monotone — a reference-loop mistake at position 1 is followed by an
extra-word record whose position is the index 0 of its best reference
match. -/
theorem c3_positions_not_monotone :
    (compare_texts_detailed "ααα ααβ".data "ααα γδεζ".data).2.2.map Mistake.position = [1, 0] ∧
    ¬ List.Chain' (· ≤ ·)
      ((compare_texts_detailed "ααα ααβ".data "ααα γδεζ".data).2.2.map Mistake.position) := by
  have h : (compare_texts_detailed "ααα ααβ".data "ααα γδεζ".data).2.2.map Mistake.position
      = [1, 0] := by decide
  refine ⟨h, ?_⟩
  rw [h]
  intro hc
  exact absurd (List.chain'_cons.mp hc).1 (by omega)

/-- C7 (amended): the wrong-article candidate `"η φίλος"` against `"ο φίλος"`
is rejected; in general, whenever both sides keep content words after
normalisation, the greedy content-word score is at least 0.85 and the article
sequences differ, `compare_texts` rejects — though the reported similarity is
set to `main * 0.7` only before the boost stages, which may raise it (to 0.95
in the concrete pair). -/
theorem c7_article_mismatch_rejects :
    compare_texts "η φίλος".data "ο φίλος".data = (false, 19/20) ∧
    ∀ a b : List Char,
      a ≠ [] →
      normalize_text (userAdjusted a) ≠ normalize_text b →
      normalize_greek_i_sound (normalize_text (userAdjusted a)) ≠
        normalize_greek_i_sound (normalize_text b) →
      (splitWs (normalize_text (userAdjusted a))).filter (fun w => w ∉ greekArticles) ≠ [] →
      (splitWs (normalize_text b)).filter (fun w => w ∉ greekArticles) ≠ [] →
      85/100 ≤ mainScore
        ((splitWs (normalize_text (userAdjusted a))).filter (fun w => w ∉ greekArticles))
        ((splitWs (normalize_text b)).filter (fun w => w ∉ greekArticles)) →
      (splitWs (normalize_text (userAdjusted a))).filter (fun w => w ∈ greekArticles) ≠
        (splitWs (normalize_text b)).filter (fun w => w ∈ greekArticles) →
      (compare_texts a b).1 = false := by
  constructor
  · decide
  · intro a b h0 h1 h2 hum hcm hms ham
    simp only [compare_texts]
    rw [if_neg h0, if_neg h1, if_neg h2]
    by_cases h3 : (splitWs (normalize_text (userAdjusted a))).length = 0 ∨
        (splitWs (normalize_text b)).length = 0
    · exfalso
      rcases h3 with h3 | h3
      · exact hum (by rw [List.length_eq_zero.mp h3]; rfl)
      · exact hcm (by rw [List.length_eq_zero.mp h3]; rfl)
    · rw [if_neg h3]
      have hic0 := ctPhase1_snd_false
        ((splitWs (normalize_text (userAdjusted a))).filter (fun w => w ∈ greekArticles))
        ((splitWs (normalize_text b)).filter (fun w => w ∈ greekArticles))
        ((splitWs (normalize_text (userAdjusted a))).filter (fun w => w ∉ greekArticles))
        ((splitWs (normalize_text b)).filter (fun w => w ∉ greekArticles))
        (splitWs (normalize_text (userAdjusted a))) (splitWs (normalize_text b))
        hum hcm hms ham
      rw [hic0]
      rw [ctPhase3_snd_false _ _ _ _ _ _ _ hum hcm ham]
      simp

/-- Witness for the general part of C7 at the concrete wrong-article pair. -/
theorem c7_article_mismatch_rejects_witness :
    (compare_texts "η φίλος".data "ο φίλος".data).1 = false :=
  c7_article_mismatch_rejects.2 "η φίλος".data "ο φίλος".data (by decide) (by decide)
    (by decide) (by decide) (by decide) (by decide) (by decide)

/-- C7 counterexample: wrong-article candidate `"η φίλος"` against `"ο φίλος"`
is indeed rejected, but the reported similarity is 0.95 (raised by the
best-pairwise-boost stage), not the claimed `main_similarity * 0.7 = 0.7`. -/
theorem c7_similarity_not_penalty :
    compare_texts "η φίλος".data "ο φίλος".data = (false, 19/20) ∧
    word_similarity "φιλος".data "φιλος".data = 1 ∧
    (19/20 : ℚ) ≠ 1 * (7/10) := by decide

/-- C10 counterexample: for the single-character string `" "`, the score is
0.92, not 0.7 — both words canonicalise to the empty string under the
i-sound normalisation, so the 0.92 shortcut fires. -/
theorem c10_space_scores_092 :
    word_similarity "".data " ".data = 92/100 ∧ (92/100 : ℚ) ≠ 7/10 := by decide
